import Mathlib

/-
  Verification development for `src/predict_debias.py` (NRMS debiased evaluation).

  The Python source is shallowly embedded below:
  * probabilities and embedding coordinates are modelled by exact rationals
    (and by reals where a square root is taken);
  * the stateful pieces (the deduplicating `news2vector` / `user2vector`
    caches, the in-place tensor update in `neutralize_embeddings`, the
    output-writing impression loop) are modelled by explicit state passing;
  * fallible operations (dict lookups that may raise `KeyError`, the local
    variable that may be unbound on return) are modelled with `Option`.
-/

namespace PredictDebias

/-! ### Ranking (lines 317-326 of `predict_debias.py`)

`scipy.stats.rankdata(xs, method='ordinal')` assigns rank `1 + #{j | xs[j] < xs[i]}
+ #{j < i | xs[j] = xs[i]}` to position `i`: the position (1-based) of element `i`
in a stable ascending sort.  This is the documented contract of the external
`rankdata` call. -/

/-- Predicate: position `j` comes strictly before position `i` in the stable
ascending order of `xs` (smaller value, or equal value and earlier index). -/
def ordBefore (xs : List ℚ) (i j : ℕ) : Prop :=
  xs.getD j 0 < xs.getD i 0 ∨ (xs.getD j 0 = xs.getD i 0 ∧ j < i)

instance (xs : List ℚ) (i j : ℕ) : Decidable (ordBefore xs i j) :=
  inferInstanceAs (Decidable (xs.getD j 0 < xs.getD i 0 ∨ (xs.getD j 0 = xs.getD i 0 ∧ j < i)))

/-- Ordinal (stable ascending) rank of position `i` in `xs`, 1-based. -/
def ordinalRank (xs : List ℚ) (i : ℕ) : ℕ :=
  1 + ((Finset.range xs.length).filter (fun j => ordBefore xs i j)).card

/-- Model of `ss.rankdata(y_pred_prob, method='ordinal')`. -/
def rankdata_ordinal (xs : List ℚ) : List ℕ :=
  (List.range xs.length).map (ordinalRank xs)

/-- Model of `y_pred = len(y_pred_prob) - ss.rankdata(y_pred_prob, method='ordinal') + 1`. -/
def y_pred (xs : List ℚ) : List ℤ :=
  (rankdata_ordinal xs).map (fun (r : ℕ) => (xs.length : ℤ) - (r : ℤ) + 1)

/-- Model of lines 324-326: `','.join(str(int(x)) ...)` interpolated into
`f'\x7bimpression_id\x7d [\x7by_pred_str\x7d]\n'`. -/
def prediction_line (impression_id : ℤ) (probs : List ℚ) : String :=
  toString impression_id ++ (" [") ++
    String.intercalate (",") ((y_pred probs).map (fun z => toString z)) ++ ("]\n")

lemma ordBefore_irrefl (xs : List ℚ) (i : ℕ) : ¬ ordBefore xs i i := by
  simp [ordBefore]

lemma rank_lt_rank (xs : List ℚ) {i j : ℕ} (hi : i < xs.length)
    (h : ordBefore xs j i) : ordinalRank xs i < ordinalRank xs j := by
  unfold ordinalRank
  have hmono : (Finset.range xs.length).filter (fun k => ordBefore xs i k) ⊆
      (Finset.range xs.length).filter (fun k => ordBefore xs j k) := by
    intro k hk
    simp only [Finset.mem_filter, Finset.mem_range] at hk ⊢
    refine ⟨hk.1, ?_⟩
    rcases h with h | ⟨heq, hij⟩
    · rcases hk.2 with hk2 | ⟨hk2, _⟩
      · exact Or.inl (lt_trans hk2 h)
      · exact Or.inl (hk2 ▸ h)
    · rcases hk.2 with hk2 | ⟨hk2, hki⟩
      · exact Or.inl (heq ▸ hk2)
      · exact Or.inr ⟨heq ▸ hk2, lt_trans hki hij⟩
  have hins : insert i ((Finset.range xs.length).filter (fun k => ordBefore xs i k)) ⊆
      (Finset.range xs.length).filter (fun k => ordBefore xs j k) := by
    intro k hk
    rcases Finset.mem_insert.mp hk with rfl | hk
    · exact Finset.mem_filter.mpr ⟨Finset.mem_range.mpr hi, h⟩
    · exact hmono hk
  have hnotmem : i ∉ (Finset.range xs.length).filter (fun k => ordBefore xs i k) := by
    simp [Finset.mem_filter, ordBefore_irrefl]
  have := Finset.card_le_card hins
  rw [Finset.card_insert_of_not_mem hnotmem] at this
  omega

lemma rank_le_length (xs : List ℚ) {j : ℕ} (hj : j < xs.length) :
    ordinalRank xs j ≤ xs.length := by
  unfold ordinalRank
  have hsub : (Finset.range xs.length).filter (fun k => ordBefore xs j k) ⊆
      (Finset.range xs.length).erase j := by
    rw [Finset.subset_erase]
    refine ⟨Finset.filter_subset _ _, ?_⟩
    simp [Finset.mem_filter, ordBefore_irrefl]
  have := Finset.card_le_card hsub
  rw [Finset.card_erase_of_mem (Finset.mem_range.mpr hj), Finset.card_range] at this
  omega

lemma ordBefore_total (xs : List ℚ) {i j : ℕ} (hij : i ≠ j) :
    ordBefore xs i j ∨ ordBefore xs j i := by
  rcases lt_trichotomy (xs.getD j 0) (xs.getD i 0) with h | h | h
  · exact Or.inl (Or.inl h)
  · rcases lt_or_gt_of_ne hij with hlt | hlt
    · exact Or.inr (Or.inr ⟨h.symm, hlt⟩)
    · exact Or.inl (Or.inr ⟨h, hlt⟩)
  · exact Or.inr (Or.inl h)

lemma y_pred_eq_map (xs : List ℚ) :
    y_pred xs = (List.range xs.length).map
      (fun i => (xs.length : ℤ) - (ordinalRank xs i : ℤ) + 1) := by
  unfold y_pred rankdata_ordinal
  rw [List.map_map]
  rfl

lemma y_pred_getD (xs : List ℚ) {i : ℕ} (hi : i < xs.length) :
    (y_pred xs).getD i 0 = (xs.length : ℤ) - (ordinalRank xs i : ℤ) + 1 := by
  rw [y_pred_eq_map]
  rw [List.getD_eq_getElem?_getD, List.getElem?_map, List.getElem?_range hi]
  rfl

lemma rank_ne_rank (xs : List ℚ) {i j : ℕ} (hi : i < xs.length) (hj : j < xs.length)
    (hij : i ≠ j) : ordinalRank xs i ≠ ordinalRank xs j := by
  rcases ordBefore_total xs hij with h | h
  · exact (rank_lt_rank xs hj h).ne'
  · exact (rank_lt_rank xs hi h).ne

lemma y_pred_nodup (xs : List ℚ) : (y_pred xs).Nodup := by
  rw [y_pred_eq_map]
  refine List.Nodup.map_on ?_ (List.nodup_range _)
  intro i hi j hj hfeq
  by_contra hij
  have h1 := rank_le_length xs (List.mem_range.mp hi)
  have h2 := rank_le_length xs (List.mem_range.mp hj)
  have := rank_ne_rank xs (List.mem_range.mp hi) (List.mem_range.mp hj) hij
  omega

lemma y_pred_perm (xs : List ℚ) :
    (y_pred xs).Perm ((List.range xs.length).map (fun (k : ℕ) => (k : ℤ) + 1)) := by
  have hT : ((List.range xs.length).map (fun (k : ℕ) => (k : ℤ) + 1)).Nodup := by
    refine List.Nodup.map_on ?_ (List.nodup_range _)
    intro i _ j _ h
    omega
  have hL := y_pred_nodup xs
  have hlenL : (y_pred xs).length = xs.length := by
    rw [y_pred_eq_map, List.length_map, List.length_range]
  have hlenT : ((List.range xs.length).map (fun (k : ℕ) => (k : ℤ) + 1)).length
      = xs.length := by rw [List.length_map, List.length_range]
  refine List.perm_of_nodup_nodup_toFinset_eq hL hT ?_
  have hsub : (y_pred xs).toFinset ⊆
      ((List.range xs.length).map (fun (k : ℕ) => (k : ℤ) + 1)).toFinset := by
    intro v hv
    rw [List.mem_toFinset] at hv ⊢
    rw [y_pred_eq_map] at hv
    rcases List.mem_map.mp hv with ⟨i, hi, rfl⟩
    have hilen := List.mem_range.mp hi
    have h1 := rank_le_length xs hilen
    have h2 : 1 ≤ ordinalRank xs i := Nat.le_add_right 1 _
    refine List.mem_map.mpr ⟨xs.length - ordinalRank xs i, ?_, ?_⟩
    · exact List.mem_range.mpr (by omega)
    · push_cast [Nat.cast_sub h1]
      ring
  refine Finset.eq_of_subset_of_card_le hsub ?_
  rw [List.toFinset_card_of_nodup hL, List.toFinset_card_of_nodup hT, hlenL, hlenT]

/-- C1 counterexample: the source computes `len - rankdata(·, 'ordinal') + 1`
(line 318), which for the tied probabilities `[0.5, 0.5, 0.9]` yields ranks
`[3, 2, 1]`, not the claimed `[2, 3, 1]`: among equal probabilities the
earlier-indexed candidate receives the larger rank. -/
theorem tie_break_counterexample :
    y_pred [mkRat 1 2, mkRat 1 2, mkRat 9 10] = [3, 2, 1] ∧
    y_pred [mkRat 1 2, mkRat 1 2, mkRat 9 10] ≠ [2, 3, 1] := by decide

/-- C1 (amended): when two candidates have equal click probability, the
LATER-indexed candidate receives the smaller (better) rank: the code computes
`n + 1 - (ascending stable ordinal rank)`, which reverses the tie order, so
for probabilities `[0.5, 0.5, 0.9]` the output ranks are `[3, 2, 1]`. -/
theorem tie_break_reversed (xs : List ℚ) (i j : ℕ) (hij : i < j) (hj : j < xs.length)
    (heq : xs.getD i 0 = xs.getD j 0) :
    (y_pred xs).getD j 0 < (y_pred xs).getD i 0 ∧
    y_pred [mkRat 1 2, mkRat 1 2, mkRat 9 10] = [3, 2, 1] := by
  have hi : i < xs.length := lt_trans hij hj
  refine ⟨?_, by decide⟩
  have hrank : ordinalRank xs i < ordinalRank xs j :=
    rank_lt_rank xs hi (Or.inr ⟨heq, hij⟩)
  have hle := rank_le_length xs hj
  rw [y_pred_getD xs hi, y_pred_getD xs hj]
  omega

/-- Witness for `tie_break_reversed` at probabilities `[0.5, 0.5, 0.9]`,
positions 0 and 1. -/
theorem tie_break_reversed_witness :
    (0 : ℕ) < 1 ∧ 1 < ([mkRat 1 2, mkRat 1 2, mkRat 9 10] : List ℚ).length ∧
    ([mkRat 1 2, mkRat 1 2, mkRat 9 10] : List ℚ).getD 0 0 =
      ([mkRat 1 2, mkRat 1 2, mkRat 9 10] : List ℚ).getD 1 0 ∧
    (y_pred [mkRat 1 2, mkRat 1 2, mkRat 9 10]).getD 1 0 <
      (y_pred [mkRat 1 2, mkRat 1 2, mkRat 9 10]).getD 0 0 :=
  ⟨by decide, by decide, by decide,
    (tie_break_reversed [mkRat 1 2, mkRat 1 2, mkRat 9 10] 0 1
      (by decide) (by decide) (by decide)).1⟩

/-- C2: for every probability list the emitted rank list is a permutation of
`{1, ..., n}` (no duplicates, aligned with the original candidate order), and
the written line for impression 42 with probabilities `[0.1, 0.8, 0.3]` is
exactly `"42 [3,1,2]\n"`. -/
theorem rank_permutation_and_line_format (xs : List ℚ) :
    (y_pred xs).Perm ((List.range xs.length).map (fun (k : ℕ) => (k : ℤ) + 1)) ∧
    prediction_line 42 [mkRat 1 10, mkRat 8 10, mkRat 3 10] = "42 [3,1,2]\n" :=
  ⟨y_pred_perm xs, by rfl⟩

/-! ### EmbeddingStore: the `news2vector` / `user2vector` caches
(lines 229-237 and 274-287 of `predict_debias.py`)

The Python dict is modelled as an association list extended only with absent
keys; `model.get_news_vector(minibatch)` (resp. `get_user_vector`) encodes
every record of the minibatch it is given, so the set of keys the encoder is
invoked for in one pass is the whole batch whenever the batch is encoded. -/

/-- Model of `news2vector[key]` (a lookup that may raise `KeyError`). -/
def lookupKey {α : Type} (store : List (String × α)) (k : String) : Option α :=
  (store.find? (fun p => p.1 == k)).map (fun p => p.2)

/-- Model of the `key in news2vector` membership test. -/
def containsKey {α : Type} (store : List (String × α)) (k : String) : Bool :=
  (lookupKey store k).isSome

/-- Model of one minibatch iteration of the cache-population loop: if any key of
the batch is absent, the external encoder is invoked on the whole minibatch and
each (key, vector) pair is inserted unless the key is by then present; otherwise
the encoder is skipped.  The second component is the list of keys the external
encoder was invoked for during this iteration. -/
def processBatch {α : Type} (encode : String → α) (store : List (String × α))
    (batch : List String) : List (String × α) × List String :=
  if batch.any (fun nid => !(containsKey store nid)) then
    ((batch.zip (batch.map encode)).foldl
      (fun s p => if containsKey s p.1 then s else s ++ [p]) store, batch)
  else (store, [])

lemma lookupKey_append_left {α : Type} {store t : List (String × α)} {k : String}
    (h : (lookupKey store k).isSome) : lookupKey (store ++ t) k = lookupKey store k := by
  unfold lookupKey at h ⊢
  rw [List.find?_append]
  cases hf : store.find? (fun p => p.1 == k) with
  | none => rw [hf] at h; simp at h
  | some p => simp [hf]

lemma foldl_insert_preserves {α : Type} (key : String) :
    ∀ (l : List (String × α)) (s : List (String × α)),
      (lookupKey s key).isSome →
      lookupKey (l.foldl (fun s p => if containsKey s p.1 then s else s ++ [p]) s) key
        = lookupKey s key
  | [], _, _ => rfl
  | p :: l, s, h => by
    simp only [List.foldl_cons]
    by_cases hc : containsKey s p.1
    · rw [if_pos hc]
      exact foldl_insert_preserves key l s h
    · rw [if_neg hc]
      have happ : lookupKey (s ++ [p]) key = lookupKey s key := lookupKey_append_left h
      have h' : (lookupKey (s ++ [p]) key).isSome := by rw [happ]; exact h
      rw [foldl_insert_preserves key l (s ++ [p]) h', happ]

/-- C3 counterexample: with the store already holding key `"a"`, processing the
batch `["a", "b"]` (which also contains the absent key `"b"`) invokes the
external encoder on the whole batch, including the cached key `"a"`. -/
theorem store_reencodes_cached_key :
    containsKey [(("a"), (0 : ℚ))] ("a") = true ∧
    ("a") ∈ (processBatch (fun _ => (1 : ℚ)) [(("a"), (0 : ℚ))] [("a"), ("b")]).2 := by
  decide

/-- C3 (amended): for every key already present in the store, the cached value
is never overwritten by processing any further batch, and a batch whose keys
are all present skips the encoder entirely; however a batch mixing a cached key
with a missing key re-invokes the encoder on the whole batch (the recomputed
value for the cached key is discarded). -/
theorem store_cached_value_preserved {α : Type} (encode : String → α)
    (store : List (String × α)) (batch : List String) (key : String)
    (hmem : (lookupKey store key).isSome) :
    lookupKey (processBatch encode store batch).1 key = lookupKey store key ∧
    ((∀ nid ∈ batch, containsKey store nid) →
      (processBatch encode store batch).2 = []) := by
  constructor
  · unfold processBatch
    by_cases hb : batch.any (fun nid => !(containsKey store nid))
    · rw [if_pos hb]
      exact foldl_insert_preserves key _ store hmem
    · rw [if_neg hb]
  · intro hall
    unfold processBatch
    have hfalse : batch.any (fun nid => !(containsKey store nid)) = false := by
      rw [List.any_eq_false]
      intro x hx
      simp only [Bool.not_eq_true', Bool.not_eq_false]
      exact hall x hx
    rw [if_neg (by rw [hfalse]; exact Bool.false_ne_true)]

/-- Witness for `store_cached_value_preserved`: store `[("a", 0)]`,
batch `["a"]`, key `"a"`. -/
theorem store_cached_value_preserved_witness :
    (lookupKey [(("a"), (0 : ℚ))] ("a")).isSome = true ∧
    lookupKey (processBatch (fun _ => (1 : ℚ)) [(("a"), (0 : ℚ))] [("a")]).1 ("a")
      = lookupKey [(("a"), (0 : ℚ))] ("a") :=
  ⟨by decide,
    (store_cached_value_preserved (fun _ => (1 : ℚ)) [(("a"), (0 : ℚ))] [("a")] ("a")
      (by decide)).1⟩

/-! ### Category statistics and the scatter matrix (lines 167-185)

Embedding vectors are `Fin D → α` for an exact ordered field `α`; the
`embeddings` tensor is a list of row vectors, `categories` the parallel list of
integer category codes.  Matrices are `Fin D → Fin D → α` with pointwise
algebraic structure. -/

/-- Model of `embeddings[mask]` for `mask = (categories == c)`: the member
embeddings of category `c`, in order. -/
def maskSelect {α : Type} {D : ℕ} (embeddings : List (Fin D → α))
    (categories : List ℤ) (c : ℤ) : List (Fin D → α) :=
  ((embeddings.zip categories).filter (fun p => p.2 == c)).map (fun p => p.1)

/-- Model of `tensor.mean(dim=0)` on a list of row vectors. -/
def meanVec {α : Type} [Field α] {D : ℕ} (l : List (Fin D → α)) : Fin D → α :=
  fun j => (l.map (fun e => e j)).sum / (l.length : α)

/-- Model of `compute_category_means` (lines 168-173): the per-category mean
embedding, as a function standing for the returned dict. -/
def compute_category_means {α : Type} [Field α] {D : ℕ} (embeddings : List (Fin D → α))
    (categories : List ℤ) (_categoriesUnique : List ℤ) : ℤ → (Fin D → α) :=
  fun c => meanVec (maskSelect embeddings categories c)

/-- Model of `torch.ger`: the outer product of two vectors. -/
def ger {α : Type} [Mul α] {D : ℕ} (x y : Fin D → α) : Fin D → Fin D → α :=
  fun i j => x i * y j

/-- Contribution of one category to `C` in `construct_c`:
`for diff in diffs: C += torch.ger(diff, diff) / diffs.shape[0]` with
`diffs = embeddings[mask] - category_means[c]`. -/
def categoryTerm {α : Type} [Field α] {D : ℕ} (embeddings : List (Fin D → α))
    (categories : List ℤ) (category_means : ℤ → Fin D → α) (c : ℤ) :
    Fin D → Fin D → α :=
  let diffs := (maskSelect embeddings categories c).map (fun e => e - category_means c)
  (diffs.map (fun d => fun i j => ger d d i j / (diffs.length : α))).sum

/-- Model of `construct_c` (lines 177-185): the accumulated scatter matrix. -/
def construct_c {α : Type} [Field α] {D : ℕ} (embeddings : List (Fin D → α))
    (categories : List ℤ) (category_means : ℤ → Fin D → α)
    (categoriesUnique : List ℤ) : Fin D → Fin D → α :=
  (categoriesUnique.map (categoryTerm embeddings categories category_means)).sum

/-- Scatter matrix as worded by the spec: the sum, over all distinct categories
`c` with members `e_1..e_n` and mean `m_c`, of the outer products
`(e_i - m_c) ⊗ (e_i - m_c)`, each divided by that category's member count `n`. -/
def scatter_spec {α : Type} [Field α] {D : ℕ} (embeddings : List (Fin D → α))
    (categories : List ℤ) : Fin D → Fin D → α :=
  (categories.dedup.map (fun c =>
    ((maskSelect embeddings categories c).map (fun e => fun i j =>
      (e i - meanVec (maskSelect embeddings categories c) i) *
        (e j - meanVec (maskSelect embeddings categories c) j) /
        ((maskSelect embeddings categories c).length : α))).sum)).sum

/-- Quadratic form of a matrix, used to state positive semi-definiteness. -/
def quadForm {α : Type} [CommRing α] {D : ℕ} (M : Fin D → Fin D → α)
    (x : Fin D → α) : α :=
  ∑ i, ∑ j, x i * M i j * x j

lemma list_sum_apply {β : Type} [AddCommMonoid β] {ι κ : Type} (i : ι) (j : κ) :
    ∀ (L : List (ι → κ → β)), L.sum i j = (L.map (fun M => M i j)).sum
  | [] => rfl
  | M :: L => by
    simp [List.sum_cons, list_sum_apply i j L]

lemma quadForm_add {α : Type} [CommRing α] {D : ℕ} (M N : Fin D → Fin D → α)
    (x : Fin D → α) : quadForm (M + N) x = quadForm M x + quadForm N x := by
  unfold quadForm
  simp [Pi.add_apply, mul_add, add_mul, Finset.sum_add_distrib]

lemma quadForm_list_sum {α : Type} [CommRing α] {D : ℕ} (x : Fin D → α) :
    ∀ (L : List (Fin D → Fin D → α)),
      quadForm L.sum x = (L.map (fun M => quadForm M x)).sum
  | [] => by simp [quadForm]
  | M :: L => by
    simp [List.sum_cons, quadForm_add, quadForm_list_sum x L]

lemma quadForm_ger_div_nonneg {α : Type} [LinearOrderedField α] {D : ℕ}
    (d x : Fin D → α) {n : α} (hn : 0 ≤ n) :
    0 ≤ quadForm (fun i j => ger d d i j / n) x := by
  unfold quadForm ger
  have h1 : ∀ i j : Fin D, x i * (d i * d j / n) * x j
      = (x i * d i) * (x j * d j) / n := by
    intro i j
    ring
  simp_rw [h1, ← Finset.sum_div, ← Finset.mul_sum, ← Finset.sum_mul, ← sq]
  exact div_nonneg (sq_nonneg _) hn

lemma categoryTerm_nonneg {α : Type} [LinearOrderedField α] {D : ℕ}
    (embeddings : List (Fin D → α)) (categories : List ℤ)
    (category_means : ℤ → Fin D → α) (c : ℤ) (x : Fin D → α) :
    0 ≤ quadForm (categoryTerm embeddings categories category_means c) x := by
  unfold categoryTerm
  rw [quadForm_list_sum]
  apply List.sum_nonneg
  intro a ha
  rw [List.map_map] at ha
  rcases List.mem_map.mp ha with ⟨d, _, rfl⟩
  exact quadForm_ger_div_nonneg d x (by positivity)

lemma categoryTerm_symm {α : Type} [Field α] {D : ℕ}
    (embeddings : List (Fin D → α)) (categories : List ℤ)
    (category_means : ℤ → Fin D → α) (c : ℤ) (i j : Fin D) :
    categoryTerm embeddings categories category_means c i j
      = categoryTerm embeddings categories category_means c j i := by
  unfold categoryTerm ger
  simp only [list_sum_apply, List.map_map]
  refine congrArg List.sum (List.map_congr_left ?_)
  intro d _
  simp [Function.comp, mul_comm]

lemma categoryTerm_singleton {α : Type} [Field α] {D : ℕ}
    (embeddings : List (Fin D → α)) (categories : List ℤ) (categoriesUnique : List ℤ)
    (c : ℤ) (hone : (maskSelect embeddings categories c).length = 1) :
    categoryTerm embeddings categories
      (compute_category_means embeddings categories categoriesUnique) c = 0 := by
  rcases List.length_eq_one.mp hone with ⟨e, he⟩
  unfold categoryTerm compute_category_means
  rw [he]
  have hmean : meanVec [e] = e := by
    funext j
    simp [meanVec]
  rw [hmean]
  funext i j
  simp [ger, list_sum_apply]

lemma categoryTerm_eq_spec {α : Type} [Field α] {D : ℕ}
    (embeddings : List (Fin D → α)) (categories : List ℤ) (categoriesUnique : List ℤ)
    (c : ℤ) :
    categoryTerm embeddings categories
      (compute_category_means embeddings categories categoriesUnique) c
      = ((maskSelect embeddings categories c).map (fun e => fun i j =>
          (e i - meanVec (maskSelect embeddings categories c) i) *
            (e j - meanVec (maskSelect embeddings categories c) j) /
            ((maskSelect embeddings categories c).length : α))).sum := by
  unfold categoryTerm compute_category_means ger
  simp only [List.map_map, List.length_map]
  rfl

/-- C4: given the driver's inputs (`categoriesUnique` enumerates the distinct
categories, `category_means` is the dict computed by `compute_category_means`),
the matrix built by `construct_c` equals the spec's scatter matrix (sum over
categories of outer products of centered members, each divided by the member
count); it is symmetric and positive semi-definite, and a category with exactly
one member contributes a zero term. -/
theorem construct_c_scatter (α : Type) [LinearOrderedField α] (D : ℕ)
    (embeddings : List (Fin D → α)) (categories : List ℤ)
    (categoriesUnique : List ℤ) (category_means : ℤ → Fin D → α)
    (hu : categoriesUnique.Perm categories.dedup)
    (hm : category_means = compute_category_means embeddings categories categoriesUnique) :
    construct_c embeddings categories category_means categoriesUnique
      = scatter_spec embeddings categories ∧
    (∀ i j : Fin D, construct_c embeddings categories category_means categoriesUnique i j
      = construct_c embeddings categories category_means categoriesUnique j i) ∧
    (∀ x : Fin D → α,
      0 ≤ quadForm (construct_c embeddings categories category_means categoriesUnique) x) ∧
    (∀ c : ℤ, (maskSelect embeddings categories c).length = 1 →
      categoryTerm embeddings categories category_means c = 0) := by
  refine ⟨?_, ?_, ?_, ?_⟩
  · subst hm
    unfold construct_c scatter_spec
    rw [List.Perm.sum_eq (List.Perm.map
      (categoryTerm embeddings categories
        (compute_category_means embeddings categories categoriesUnique)) hu)]
    refine congrArg List.sum (List.map_congr_left ?_)
    intro c _
    exact categoryTerm_eq_spec embeddings categories categoriesUnique c
  · intro i j
    unfold construct_c
    rw [list_sum_apply, list_sum_apply, List.map_map, List.map_map]
    refine congrArg List.sum (List.map_congr_left ?_)
    intro c _
    exact categoryTerm_symm embeddings categories category_means c i j
  · intro x
    unfold construct_c
    rw [quadForm_list_sum, List.map_map]
    apply List.sum_nonneg
    intro a ha
    rcases List.mem_map.mp ha with ⟨c, _, rfl⟩
    exact categoryTerm_nonneg embeddings categories category_means c x
  · intro c hone
    subst hm
    exact categoryTerm_singleton embeddings categories categoriesUnique c hone

/-- Witness for `construct_c_scatter`: one embedding `(1)` in category `5`. -/
theorem construct_c_scatter_witness :
    (([5] : List ℤ).Perm ([5] : List ℤ).dedup) ∧
    construct_c [fun (_ : Fin 1) => (1 : ℚ)] [5]
        (compute_category_means [fun (_ : Fin 1) => (1 : ℚ)] [5] [5]) [5]
      = scatter_spec [fun (_ : Fin 1) => (1 : ℚ)] [5] :=
  ⟨by decide,
    (construct_c_scatter ℚ 1 [fun (_ : Fin 1) => (1 : ℚ)] [5] [5]
      (compute_category_means [fun (_ : Fin 1) => (1 : ℚ)] [5] [5])
      (by decide) rfl).1⟩

/-! ### Neutralizer (lines 194-204)

`neutralize_embeddings` iterates over the columns of `bias_subspace`; the
statement `embeddings -= projections` mutates the tensor passed by the caller
in place, while `normalized_embeddings` is a fresh tensor recomputed at each
iteration and returned after the loop.  The mutation is modelled by explicit
state passing, the possibly-unbound local by an `Option`, and the square root
of `torch.norm` forces this part of the model into `ℝ`. -/

/-- Dot product of two row vectors. -/
def dotV {D : ℕ} (x y : Fin D → ℝ) : ℝ := ∑ j, x j * y j

/-- Per-row effect of `embeddings -= torch.matmul(embeddings, component) * component.T`. -/
def removeProj {D : ℕ} (v e : Fin D → ℝ) : Fin D → ℝ :=
  fun j => e j - dotV e v * v j

/-- Sequential removal of the projections onto a list of directions. -/
def remove_projections {D : ℕ} (vs : List (Fin D → ℝ)) (e : Fin D → ℝ) : Fin D → ℝ :=
  vs.foldl (fun acc v => removeProj v acc) e

/-- Model of `torch.norm(·, p=2, dim=1)` on one row. -/
noncomputable def l2norm {D : ℕ} (e : Fin D → ℝ) : ℝ := Real.sqrt (dotV e e)

/-- Per-row effect of `embeddings / embeddings_norm`. -/
noncomputable def normalizeRow {D : ℕ} (e : Fin D → ℝ) : Fin D → ℝ :=
  fun j => e j / l2norm e

/-- One iteration of the loop in `neutralize_embeddings`: the state is the pair
(current value of the mutated `embeddings` tensor, current value of the local
variable `normalized_embeddings`, `none` before its first assignment). -/
noncomputable def neutralize_step {D : ℕ}
    (st : List (Fin D → ℝ) × Option (List (Fin D → ℝ))) (v : Fin D → ℝ) :
    List (Fin D → ℝ) × Option (List (Fin D → ℝ)) :=
  let emb := st.1.map (removeProj v)
  (emb, some (emb.map normalizeRow))

/-- Model of `neutralize_embeddings` by explicit state passing: the first
component is the final value of the caller's `embeddings` tensor, the second
the function's return value (`none` models the `UnboundLocalError` raised at
`return normalized_embeddings` when the loop body never ran). -/
noncomputable def neutralize_full {D : ℕ} (embeddings : List (Fin D → ℝ))
    (bias_subspace : List (Fin D → ℝ)) :
    List (Fin D → ℝ) × Option (List (Fin D → ℝ)) :=
  bias_subspace.foldl neutralize_step (embeddings, none)

/-- Return value of `neutralize_embeddings` (lines 195-204). -/
noncomputable def neutralize_embeddings {D : ℕ} (embeddings : List (Fin D → ℝ))
    (bias_subspace : List (Fin D → ℝ)) : Option (List (Fin D → ℝ)) :=
  (neutralize_full embeddings bias_subspace).2

lemma neutralize_foldl_fst {D : ℕ} :
    ∀ (vs : List (Fin D → ℝ)) (emb : List (Fin D → ℝ))
      (o : Option (List (Fin D → ℝ))),
      (vs.foldl neutralize_step (emb, o)).1 = emb.map (remove_projections vs)
  | [], emb, _ => by
    simp only [List.foldl_nil]
    exact (List.map_id'' (fun _ => rfl) emb).symm
  | v :: vs, emb, o => by
    simp only [List.foldl_cons]
    rw [show neutralize_step (emb, o) v
        = (emb.map (removeProj v), some ((emb.map (removeProj v)).map normalizeRow))
      from rfl]
    rw [neutralize_foldl_fst vs _ _, List.map_map]
    rfl

lemma neutralize_foldl_snd {D : ℕ} :
    ∀ (vs : List (Fin D → ℝ)) (emb : List (Fin D → ℝ))
      (o : Option (List (Fin D → ℝ))), vs ≠ [] →
      (vs.foldl neutralize_step (emb, o)).2
        = some ((vs.foldl neutralize_step (emb, o)).1.map normalizeRow)
  | [], _, _, h => absurd rfl h
  | [_], _, _, _ => rfl
  | v :: v' :: vs, emb, o, _ => by
    simp only [List.foldl_cons]
    exact neutralize_foldl_snd (v' :: vs)
      (emb.map (removeProj v)) (some ((emb.map (removeProj v)).map normalizeRow))
      (by simp)

lemma neutralize_full_fst {D : ℕ} (vs emb : List (Fin D → ℝ)) :
    (neutralize_full emb vs).1 = emb.map (remove_projections vs) :=
  neutralize_foldl_fst vs emb none

lemma neutralize_full_snd {D : ℕ} (vs emb : List (Fin D → ℝ)) (h : vs ≠ []) :
    (neutralize_full emb vs).2 = some ((neutralize_full emb vs).1.map normalizeRow) :=
  neutralize_foldl_snd vs emb none h

lemma dotV_comm {D : ℕ} (x y : Fin D → ℝ) : dotV x y = dotV y x := by
  unfold dotV
  exact Finset.sum_congr rfl (fun j _ => mul_comm _ _)

lemma dotV_removeProj {D : ℕ} (v e w : Fin D → ℝ) :
    dotV (removeProj v e) w = dotV e w - dotV e v * dotV v w := by
  unfold removeProj dotV
  rw [Finset.mul_sum, ← Finset.sum_sub_distrib]
  refine Finset.sum_congr rfl (fun j _ => ?_)
  ring

lemma remove_projections_dot_preserved {D : ℕ} :
    ∀ (vs : List (Fin D → ℝ)) (e w : Fin D → ℝ), (∀ u ∈ vs, dotV u w = 0) →
      dotV (remove_projections vs e) w = dotV e w
  | [], _, _, _ => rfl
  | u :: vs, e, w, h => by
    have hstep : remove_projections (u :: vs) e
        = remove_projections vs (removeProj u e) := rfl
    rw [hstep, remove_projections_dot_preserved vs _ w (fun x hx => h x (by simp [hx])),
      dotV_removeProj, h u (by simp), mul_zero, sub_zero]

lemma remove_projections_orth {D : ℕ} :
    ∀ (vs : List (Fin D → ℝ)) (e : Fin D → ℝ),
      vs.Pairwise (fun u v => dotV u v = 0) → (∀ v ∈ vs, dotV v v = 1) →
      ∀ v ∈ vs, dotV (remove_projections vs e) v = 0
  | [], _, _, _ => by simp
  | u :: vs, e, hp, hn => by
    rw [List.pairwise_cons] at hp
    intro v hv
    have hstep : remove_projections (u :: vs) e
        = remove_projections vs (removeProj u e) := rfl
    rcases List.mem_cons.mp hv with rfl | hv
    · rw [hstep, remove_projections_dot_preserved vs _ v
        (fun x hx => (dotV_comm x v) ▸ hp.1 x hx),
        dotV_removeProj, hn v (by simp), mul_one, sub_self]
    · exact hstep ▸ remove_projections_orth vs (removeProj u e) hp.2
        (fun x hx => hn x (by simp [hx])) v hv

lemma dotV_self_nonneg {D : ℕ} (e : Fin D → ℝ) : 0 ≤ dotV e e :=
  Finset.sum_nonneg (fun j _ => mul_self_nonneg (e j))

lemma l2norm_normalizeRow {D : ℕ} (e : Fin D → ℝ) (h : dotV e e ≠ 0) :
    l2norm (normalizeRow e) = 1 := by
  have hsq : dotV (normalizeRow e) (normalizeRow e) = 1 := by
    unfold dotV normalizeRow l2norm
    have hterm : ∀ j : Fin D, e j / Real.sqrt (dotV e e) * (e j / Real.sqrt (dotV e e))
        = e j * e j / dotV e e := by
      intro j
      rw [div_mul_div_comm, Real.mul_self_sqrt (dotV_self_nonneg e)]
    simp_rw [hterm]
    rw [← Finset.sum_div]
    exact div_self h
  unfold l2norm
  rw [hsq, Real.sqrt_one]

/-- C5: for orthonormal bias-subspace columns (k ≥ 1), the projection-removed
embeddings left in the caller's tensor are orthogonal to every basis vector,
and (provided no row became degenerate) every row of the returned tensor has
L2 norm exactly 1. -/
theorem neutralize_orthogonal_unit_norm {D : ℕ}
    (embeddings : List (Fin D → ℝ)) (bias_subspace : List (Fin D → ℝ))
    (hk : bias_subspace ≠ [])
    (horth : bias_subspace.Pairwise (fun u v => dotV u v = 0))
    (hunit : ∀ v ∈ bias_subspace, dotV v v = 1)
    (hnondeg : ∀ e ∈ embeddings, dotV (remove_projections bias_subspace e)
      (remove_projections bias_subspace e) ≠ 0) :
    (∀ e ∈ (neutralize_full embeddings bias_subspace).1,
      ∀ v ∈ bias_subspace, dotV e v = 0) ∧
    (∃ res, neutralize_embeddings embeddings bias_subspace = some res ∧
      ∀ r ∈ res, l2norm r = 1) := by
  have hfst : (neutralize_full embeddings bias_subspace).1
      = embeddings.map (remove_projections bias_subspace) :=
    neutralize_foldl_fst bias_subspace embeddings none
  constructor
  · intro e he v hv
    rw [hfst] at he
    rcases List.mem_map.mp he with ⟨e0, _, rfl⟩
    exact remove_projections_orth bias_subspace e0 horth hunit v hv
  · refine ⟨(neutralize_full embeddings bias_subspace).1.map normalizeRow,
      neutralize_foldl_snd bias_subspace embeddings none hk, ?_⟩
    intro r hr
    rw [hfst, List.map_map] at hr
    rcases List.mem_map.mp hr with ⟨e0, he0, rfl⟩
    exact l2norm_normalizeRow _ (hnondeg e0 he0)

/-- Witness for `neutralize_orthogonal_unit_norm`: one embedding `(0, 1)`, one
orthonormal bias direction `(1, 0)`. -/
theorem neutralize_orthogonal_unit_norm_witness :
    (([![(1 : ℝ), 0]] : List (Fin 2 → ℝ)) ≠ []) ∧
    (∃ res, neutralize_embeddings [![(0 : ℝ), 1]] [![(1 : ℝ), 0]] = some res ∧
      ∀ r ∈ res, l2norm r = 1) :=
  ⟨by simp,
    (neutralize_orthogonal_unit_norm [![(0 : ℝ), 1]] [![(1 : ℝ), 0]]
      (by simp)
      (List.pairwise_singleton _ _)
      (by
        intro v hv
        rw [List.mem_singleton] at hv
        subst hv
        simp [dotV, Fin.sum_univ_two])
      (by
        intro e he
        rw [List.mem_singleton] at he
        subst he
        have hrp : remove_projections [![(1 : ℝ), 0]] ![(0 : ℝ), 1] = ![(0 : ℝ), 1] := by
          funext j
          simp [remove_projections, removeProj, dotV, Fin.sum_univ_two]
        rw [hrp]
        simp [dotV, Fin.sum_univ_two])).2⟩

/-- C6 evidence: at the failing input where the single embedding coincides with
the single (unit) bias direction, projection removal yields the zero row and
`neutralize_embeddings` proceeds to divide by the zero norm instead of raising
an error: it returns a zero row whose L2 norm is 0, not 1 (in floating-point
arithmetic this division produces NaN). -/
theorem neutralize_divides_by_zero_norm :
    neutralize_embeddings [fun (_ : Fin 1) => (1 : ℝ)] [fun (_ : Fin 1) => (1 : ℝ)]
      = some [fun (_ : Fin 1) => (0 : ℝ)] ∧
    l2norm (fun (_ : Fin 1) => (0 : ℝ)) = 0 := by
  constructor
  · unfold neutralize_embeddings neutralize_full
    simp only [List.foldl_cons, List.foldl_nil, neutralize_step]
    have h1 : removeProj (fun (_ : Fin 1) => (1 : ℝ)) (fun _ => (1 : ℝ))
        = fun _ => (0 : ℝ) := by
      funext j
      simp [removeProj, dotV, Fin.sum_univ_one]
    have h2 : normalizeRow (fun (_ : Fin 1) => (0 : ℝ)) = fun _ => (0 : ℝ) := by
      funext j
      simp [normalizeRow]
    simp [h1, h2]
  · simp [l2norm, dotV, Fin.sum_univ_one, Real.sqrt_zero]

/-- C9: with a zero-column bias subspace the loop body never runs, the local
`normalized_embeddings` is never assigned, and `neutralize_embeddings` errors
(`UnboundLocalError`, modelled by `none`) instead of returning the embeddings
unchanged. -/
theorem neutralize_empty_subspace_errors {D : ℕ} (embeddings : List (Fin D → ℝ)) :
    neutralize_embeddings embeddings [] = none ∧
    neutralize_embeddings embeddings [] ≠ some embeddings := by
  refine ⟨rfl, ?_⟩
  intro h
  simp [neutralize_embeddings, neutralize_full] at h

/-- C10: the in-place `-=` leaves the caller's tensor holding the
projection-removed but NOT renormalized rows, while the unit-norm rows exist
only in the returned tensor (the one the driver zips with the news ids at line
260); at a concrete input the two differ. -/
theorem neutralize_mutates_in_place {D : ℕ} (embeddings : List (Fin D → ℝ))
    (bias_subspace : List (Fin D → ℝ)) (hk : bias_subspace ≠ []) :
    (neutralize_full embeddings bias_subspace).1
      = embeddings.map (remove_projections bias_subspace) ∧
    neutralize_embeddings embeddings bias_subspace
      = some ((embeddings.map (remove_projections bias_subspace)).map normalizeRow) ∧
    (neutralize_full [fun (_ : Fin 1) => (2 : ℝ)] [fun (_ : Fin 1) => (0 : ℝ)]).1
      ≠ ((neutralize_full [fun (_ : Fin 1) => (2 : ℝ)]
          [fun (_ : Fin 1) => (0 : ℝ)]).2).getD [] := by
  have hfst : (neutralize_full embeddings bias_subspace).1
      = embeddings.map (remove_projections bias_subspace) :=
    neutralize_foldl_fst bias_subspace embeddings none
  refine ⟨hfst, ?_, ?_⟩
  · show (neutralize_full embeddings bias_subspace).2
      = some ((embeddings.map (remove_projections bias_subspace)).map normalizeRow)
    rw [neutralize_full_snd bias_subspace embeddings hk, hfst]
  · have hzero : remove_projections [fun (_ : Fin 1) => (0 : ℝ)] (fun _ => (2 : ℝ))
        = fun _ => (2 : ℝ) := by
      funext j
      simp [remove_projections, removeProj, dotV, Fin.sum_univ_one]
    have hA : (neutralize_full [fun (_ : Fin 1) => (2 : ℝ)]
        [fun (_ : Fin 1) => (0 : ℝ)]).1 = [fun _ => (2 : ℝ)] := by
      rw [neutralize_full_fst]
      simp [hzero]
    have hnorm : normalizeRow (fun (_ : Fin 1) => (2 : ℝ)) = fun _ => (1 : ℝ) := by
      funext j
      have : l2norm (fun (_ : Fin 1) => (2 : ℝ)) = 2 := by
        unfold l2norm dotV
        rw [Fin.sum_univ_one]
        exact Real.sqrt_mul_self (by norm_num)
      simp [normalizeRow, this]
    have hB : (neutralize_full [fun (_ : Fin 1) => (2 : ℝ)]
        [fun (_ : Fin 1) => (0 : ℝ)]).2 = some [fun _ => (1 : ℝ)] := by
      rw [neutralize_full_snd _ _ (by simp), hA]
      simp [hnorm]
    rw [hA, hB]
    intro h
    simp only [Option.getD_some, List.cons.injEq] at h
    have := congrFun h.1 0
    norm_num at this

/-- Witness for `neutralize_mutates_in_place` at the concrete input used in its
third conjunct. -/
theorem neutralize_mutates_in_place_witness :
    (([fun (_ : Fin 1) => (0 : ℝ)] : List (Fin 1 → ℝ)) ≠ []) ∧
    (neutralize_full [fun (_ : Fin 1) => (2 : ℝ)] [fun (_ : Fin 1) => (0 : ℝ)]).1
      = [fun (_ : Fin 1) => (2 : ℝ)].map
          (remove_projections [fun (_ : Fin 1) => (0 : ℝ)]) :=
  ⟨by simp,
    (neutralize_mutates_in_place [fun (_ : Fin 1) => (2 : ℝ)]
      [fun (_ : Fin 1) => (0 : ℝ)] (by simp)).1⟩

/-! ### Evaluation driver: the per-impression loop (lines 295-327)

One `minibatch` of `behaviors_dataloader` (batch size 1) is one row of the
behaviors table.  The external scorer `model.get_prediction` is a parameter.
The loop writes one line per processed impression to `prediction.txt`; a
`KeyError` (modelled `none`) aborts the run.  The result of the loop model is
the list of written lines together with an aborted flag. -/

/-- One row of the behaviors table (`BehaviorsDataset.__getitem__`). -/
structure Behavior where
  impression_id : ℤ
  user : String
  time : String
  clicked_news_string : String
  impressions : List String

/-- Model of `news[0].split('-')[0]`: the candidate news id is the prefix of
the impression token up to the first dash. -/
def candId (tok : String) : String :=
  ⟨tok.toList.takeWhile (fun c => !(c == ('-')))⟩

/-- Model of one loop body (lines 307-326): gather each candidate's vector
(`KeyError` if a candidate id has no embedding), look up the user vector,
score, and format the output line. -/
def processImpression {D : ℕ} (score : List (Fin D → ℚ) → (Fin D → ℚ) → List ℚ)
    (news2vector user2vector : List (String × (Fin D → ℚ))) (b : Behavior) :
    Option String := do
  let cands ← b.impressions.mapM (fun tok => lookupKey news2vector (candId tok))
  let uv ← lookupKey user2vector b.clicked_news_string
  some (prediction_line b.impression_id (score cands uv))

/-- Model of the impression loop (lines 295-327): `count` is incremented at the
top of each iteration and the loop breaks, before processing, as soon as it
equals `max_count`; an impression whose processing raises (`none`) aborts the
whole run with the lines written so far. -/
def evalLoop {D : ℕ} (score : List (Fin D → ℚ) → (Fin D → ℚ) → List ℚ)
    (news2vector user2vector : List (String × (Fin D → ℚ))) :
    List Behavior → ℕ → ℕ → List String × Bool
  | [], _, _ => ([], false)
  | b :: rest, count, max_count =>
    if count + 1 = max_count then ([], false)
    else
      match processImpression score news2vector user2vector b with
      | none => ([], true)
      | some line =>
        let r := evalLoop score news2vector user2vector rest (count + 1) max_count
        (line :: r.1, r.2)

/-- Model of `evaluate`'s impression stage: the loop starting from `count = 0`. -/
def evaluate_impressions {D : ℕ} (score : List (Fin D → ℚ) → (Fin D → ℚ) → List ℚ)
    (news2vector user2vector : List (String × (Fin D → ℚ)))
    (behaviors : List Behavior) (max_count : ℕ) : List String × Bool :=
  evalLoop score news2vector user2vector behaviors 0 max_count

lemma evalLoop_all_ok {D : ℕ} (score : List (Fin D → ℚ) → (Fin D → ℚ) → List ℚ)
    (n2v u2v : List (String × (Fin D → ℚ))) :
    ∀ (behaviors : List Behavior) (count max_count : ℕ),
      count < max_count →
      max_count - count - 1 ≤ behaviors.length →
      (∀ b ∈ behaviors, (processImpression score n2v u2v b).isSome) →
      evalLoop score n2v u2v behaviors count max_count
        = ((behaviors.take (max_count - count - 1)).map
            (fun b => (processImpression score n2v u2v b).getD ("")), false)
  | [], count, max_count, _, hlen, _ => by
    simp only [List.length_nil, Nat.le_zero] at hlen
    simp [evalLoop, hlen]
  | b :: rest, count, max_count, hcount, hlen, hok => by
    by_cases hif : count + 1 = max_count
    · have h0 : max_count - count - 1 = 0 := by omega
      simp [evalLoop, hif, h0]
    · have hlt : count + 1 < max_count := by omega
      rcases Option.isSome_iff_exists.mp (hok b (by simp)) with ⟨line, hline⟩
      have hrec := evalLoop_all_ok score n2v u2v rest (count + 1) max_count hlt
        (by simp at hlen ⊢; omega) (fun x hx => hok x (by simp [hx]))
      simp only [evalLoop, if_neg hif, hline]
      rw [hrec]
      rw [show max_count - count - 1 = (max_count - (count + 1) - 1) + 1 from by omega]
      rw [List.take_succ_cons, List.map_cons, hline]
      rfl

/-- C7 counterexample: with `max_count = 2` and a stream of 2 impressions (all
of which process successfully), the loop writes exactly 1 line, not 2: the
`count == max_count` break precedes the processing of the `max_count`-th
impression. -/
theorem max_count_counterexample :
    (evaluate_impressions (fun cands _ => cands.map (fun _ => (0 : ℚ)))
        [(("n1"), fun (_ : Fin 1) => (0 : ℚ))] [(("h"), fun (_ : Fin 1) => (0 : ℚ))]
        [⟨1, ("u1"), ("t1"), ("h"), [("n1-0")]⟩, ⟨2, ("u1"), ("t1"), ("h"), [("n1-0")]⟩]
        2).1.length = 1 ∧ (1 : ℕ) ≠ 2 := by
  constructor
  · rfl
  · decide

/-- C7 (amended): when the maximum-impression-count is `N ≥ 1` and the stream
holds at least `N - 1` processable impressions, the driver ranks and writes
exactly the first `N - 1` impressions, in input order, then stops normally. -/
theorem max_count_writes_n_minus_one {D : ℕ}
    (score : List (Fin D → ℚ) → (Fin D → ℚ) → List ℚ)
    (n2v u2v : List (String × (Fin D → ℚ))) (behaviors : List Behavior) (N : ℕ)
    (hN : 1 ≤ N) (hlen : N - 1 ≤ behaviors.length)
    (hok : ∀ b ∈ behaviors, (processImpression score n2v u2v b).isSome) :
    evaluate_impressions score n2v u2v behaviors N
      = ((behaviors.take (N - 1)).map
          (fun b => (processImpression score n2v u2v b).getD ("")), false) := by
  unfold evaluate_impressions
  have h := evalLoop_all_ok score n2v u2v behaviors 0 N (by omega) (by omega) hok
  simpa using h

/-- Witness for `max_count_writes_n_minus_one`: `N = 2` on a 2-impression
stream. -/
theorem max_count_writes_n_minus_one_witness :
    (1 ≤ 2 ∧ 2 - 1 ≤
      ([⟨1, ("u1"), ("t1"), ("h"), [("n1-0")]⟩,
        ⟨2, ("u1"), ("t1"), ("h"), [("n1-0")]⟩] : List Behavior).length) ∧
    evaluate_impressions (fun cands _ => cands.map (fun _ => (0 : ℚ)))
        [(("n1"), fun (_ : Fin 1) => (0 : ℚ))] [(("h"), fun (_ : Fin 1) => (0 : ℚ))]
        [⟨1, ("u1"), ("t1"), ("h"), [("n1-0")]⟩, ⟨2, ("u1"), ("t1"), ("h"), [("n1-0")]⟩] 2
      = (([⟨1, ("u1"), ("t1"), ("h"), [("n1-0")]⟩,
          ⟨2, ("u1"), ("t1"), ("h"), [("n1-0")]⟩] : List Behavior).take (2 - 1) |>.map
          (fun b => (processImpression (fun cands _ => cands.map (fun _ => (0 : ℚ)))
            [(("n1"), fun (_ : Fin 1) => (0 : ℚ))]
            [(("h"), fun (_ : Fin 1) => (0 : ℚ))] b).getD ("")), false) :=
  ⟨⟨by decide, by decide⟩,
    max_count_writes_n_minus_one (fun cands _ => cands.map (fun _ => (0 : ℚ)))
      [(("n1"), fun (_ : Fin 1) => (0 : ℚ))] [(("h"), fun (_ : Fin 1) => (0 : ℚ))]
      [⟨1, ("u1"), ("t1"), ("h"), [("n1-0")]⟩, ⟨2, ("u1"), ("t1"), ("h"), [("n1-0")]⟩]
      2 (by decide) (by decide) (by decide)⟩

lemma mapM_none_of_mem {α β : Type} (f : α → Option β) :
    ∀ (l : List α) (a : α), a ∈ l → f a = none → l.mapM f = none
  | [], _, h, _ => absurd h (List.not_mem_nil _)
  | x :: xs, a, h, hf => by
    rw [List.mapM_cons]
    rcases List.mem_cons.mp h with rfl | h
    · rw [hf]
      rfl
    · cases hfx : f x with
      | none => rfl
      | some y =>
        rw [mapM_none_of_mem f xs a h hf]
        rfl

lemma processImpression_none {D : ℕ}
    (score : List (Fin D → ℚ) → (Fin D → ℚ) → List ℚ)
    (n2v u2v : List (String × (Fin D → ℚ))) (b : Behavior) (tok : String)
    (htok : tok ∈ b.impressions) (hmiss : lookupKey n2v (candId tok) = none) :
    processImpression score n2v u2v b = none := by
  unfold processImpression
  rw [mapM_none_of_mem _ b.impressions tok htok hmiss]
  rfl

lemma evalLoop_abort {D : ℕ} (score : List (Fin D → ℚ) → (Fin D → ℚ) → List ℚ)
    (n2v u2v : List (String × (Fin D → ℚ))) (b : Behavior)
    (hb : processImpression score n2v u2v b = none) :
    ∀ (pre post : List Behavior) (count max_count : ℕ),
      count + pre.length + 1 < max_count →
      (∀ x ∈ pre, (processImpression score n2v u2v x).isSome) →
      evalLoop score n2v u2v (pre ++ b :: post) count max_count
        = (pre.map (fun x => (processImpression score n2v u2v x).getD ("")), true)
  | [], post, count, max_count, hcount, _ => by
    simp only [List.length_nil] at hcount
    have hne : ¬ count + 1 = max_count := by omega
    simp only [List.nil_append]
    simp [evalLoop, hb, hne]
  | x :: pre, post, count, max_count, hcount, hpre => by
    simp only [List.length_cons] at hcount
    rcases Option.isSome_iff_exists.mp (hpre x (by simp)) with ⟨line, hline⟩
    have hrec := evalLoop_abort score n2v u2v b hb pre post (count + 1) max_count
      (by omega) (fun z hz => hpre z (by simp [hz]))
    simp only [List.cons_append, evalLoop,
      if_neg (by omega : ¬ count + 1 = max_count), hline, List.append_eq]
    rw [hrec, List.map_cons, hline]
    rfl

/-- C8: an impression containing a candidate token whose news id has no
embedding in the store fails with a `KeyError`; no output line is written for
it, and the whole run aborts (no later impression is processed) rather than
silently skipping it — the lines written are exactly those of the impressions
preceding it. -/
theorem missing_candidate_aborts_run {D : ℕ}
    (score : List (Fin D → ℚ) → (Fin D → ℚ) → List ℚ)
    (n2v u2v : List (String × (Fin D → ℚ))) (pre post : List Behavior)
    (b : Behavior) (tok : String) (max_count : ℕ)
    (htok : tok ∈ b.impressions) (hmiss : lookupKey n2v (candId tok) = none)
    (hcount : pre.length + 1 < max_count)
    (hpre : ∀ x ∈ pre, (processImpression score n2v u2v x).isSome) :
    evaluate_impressions score n2v u2v (pre ++ b :: post) max_count
      = (pre.map (fun x => (processImpression score n2v u2v x).getD ("")), true) := by
  unfold evaluate_impressions
  exact evalLoop_abort score n2v u2v b
    (processImpression_none score n2v u2v b tok htok hmiss)
    pre post 0 max_count (by omega) hpre

/-- Witness for `missing_candidate_aborts_run`: the only impression references
the unencoded id `"n2"`; the run aborts with no lines written. -/
theorem missing_candidate_aborts_run_witness :
    lookupKey [(("n1"), fun (_ : Fin 1) => (0 : ℚ))] (candId ("n2-0")) = none ∧
    evaluate_impressions (fun cands _ => cands.map (fun _ => (0 : ℚ)))
        [(("n1"), fun (_ : Fin 1) => (0 : ℚ))] [(("h"), fun (_ : Fin 1) => (0 : ℚ))]
        [⟨7, ("u1"), ("t1"), ("h"), [("n2-0")]⟩] 9 = ([], true) :=
  ⟨by decide,
    missing_candidate_aborts_run (fun cands _ => cands.map (fun _ => (0 : ℚ)))
      [(("n1"), fun (_ : Fin 1) => (0 : ℚ))] [(("h"), fun (_ : Fin 1) => (0 : ℚ))]
      [] [] ⟨7, ("u1"), ("t1"), ("h"), [("n2-0")]⟩ ("n2-0") 9
      (by decide) (by decide) (by decide) (by intro x hx; cases hx)⟩

end PredictDebias
